import Mathlib

/-!
Verification of the CartoType vector-geometry kernel (cartotype_arithmetic.h,
cartotype_path.h, cartotype_geometry.h) against its natural-language
specification.  The C++ data model and operations are shallowly embedded:
machine integers become `Int` with explicit reduction modulo 2^32 where the
source narrows to `int32_t`, point sequences become `List`s, and the traverser
callback object becomes an emitted list of drawing primitives.
-/

namespace CartoType

/-! ## Fixed-point arithmetic (`TFixed`, cartotype_arithmetic.h)

`TFixed` stores a single `int32_t iValue` (16.16 fixed point).  We model the
raw value as an `Int` and the C++ narrowing casts explicitly.  Notes on C++
semantics mirrored here:
* `int32_t(e)` on a wider value keeps the low 32 bits (two's complement), as
  on all targets of this code base: `toInt32`.
* `x >> k` on a signed value is an arithmetic shift, i.e. `Int.fdiv x (2^k)`.
* `-x` at `x = INT32_MIN` wraps to `INT32_MIN` (two's-complement behaviour of
  the supported targets), hence the `toInt32` around the negations.
* `/` on `int64_t` truncates towards zero: `Int.tdiv`.
-/

/-- Reduction of an integer to the 32-bit two's-complement range, the effect
of the C++ casts `int32_t(...)` on wider intermediate values. -/
def toInt32 (n : Int) : Int :=
  (n + 2147483648) % 4294967296 - 2147483648

/-- Model of `TFixed::operator*=` (cartotype_arithmetic.h lines 150-177),
acting on raw values.  `operator*` copies the left operand and applies
`operator*=`, so it has the same raw-value behaviour.  The two fast paths
(`iValue == 0 || aB.iValue == 0x10000` and `aB.iValue == 0`), the
sign-separation into magnitudes, and the rounded 64-bit product
`(int64_t(iValue) * int64_t(aB.iValue) + 0x8000) >> 16` are reproduced
literally. -/
def mulFixRaw (a b : Int) : Int :=
  if a = 0 ∨ b = 65536 then a
  else if b = 0 then 0
  else
    let p := if a < 0 then toInt32 (-a) else a
    let q := if b < 0 then toInt32 (-b) else b
    let s : Int := (if a < 0 then -1 else 1) * (if b < 0 then -1 else 1)
    if s > 0 then toInt32 (Int.fdiv (p * q + 32768) 65536)
    else toInt32 (-(Int.fdiv (p * q + 32768) 65536))

/-- Model of `TFixed::operator/=` (cartotype_arithmetic.h lines 185-211),
acting on raw values.  `operator/` copies the left operand and applies
`operator/=`.  The fast path (`iValue == 0 || aB.iValue == 0x10000`), the
sign separation, the division-by-zero saturation `q = 0x7FFFFFFFL`, and the
general case `q = (uint32_t)((((int64_t)iValue << 16) + (aB.iValue >> 1)) /
aB.iValue)` followed by `iValue = s < 0 ? -(int32_t)q : (int32_t)q` are
reproduced literally (`(uint32_t)` is reduction modulo 2^32). -/
def divFixRaw (a b : Int) : Int :=
  if a = 0 ∨ b = 65536 then a
  else
    let p := if a < 0 then toInt32 (-a) else a
    let q0 := if b < 0 then toInt32 (-b) else b
    let s : Int := (if a < 0 then -1 else 1) * (if b < 0 then -1 else 1)
    let q : Int :=
      if q0 = 0 then 2147483647
      else (Int.tdiv (p * 65536 + Int.fdiv q0 2) q0) % 4294967296
    if s < 0 then toInt32 (-(toInt32 q)) else toInt32 q

lemma toInt32_eq_self {n : Int} (h1 : -2147483648 ≤ n) (h2 : n < 2147483648) :
    toInt32 n = n := by
  unfold toInt32
  omega

lemma fdiv_ofNat65536 (x : Nat) : Int.fdiv (x : Int) 65536 = ((x / 65536 : Nat) : Int) :=
  (Int.ofNat_fdiv x 65536).symm

lemma fdiv_ofNat2 (x : Nat) : Int.fdiv (x : Int) 2 = ((x / 2 : Nat) : Int) :=
  (Int.ofNat_fdiv x 2).symm

lemma tdiv_ofNat (x y : Nat) : Int.tdiv (x : Int) (y : Int) = ((x / y : Nat) : Int) := rfl

/-- Characterisation of `mulFixRaw` on operands whose magnitudes are
representable and whose rounded magnitude product does not overflow:
the result is the sign-separated, round-half-away-from-zero product
`s * ((|a| * |b| + 0x8000) >> 16)`. -/
lemma mulFixRaw_signed (a b : Int) (ha : a.natAbs < 2147483648) (hb : b.natAbs < 2147483648)
    (hm : (a.natAbs * b.natAbs + 32768) / 65536 < 2147483648) :
    mulFixRaw a b =
      (if a < 0 ↔ b < 0 then (1 : Int) else -1) *
        ((a.natAbs * b.natAbs + 32768) / 65536 : Nat) := by
  by_cases hA : a = 0
  · subst hA
    have hL : mulFixRaw 0 b = 0 := by
      unfold mulFixRaw
      rw [if_pos (Or.inl rfl)]
    rw [hL]
    have hM : ((0 : Int).natAbs * b.natAbs + 32768) / 65536 = 0 := by
      simp
    rw [hM]
    simp
  · by_cases hB65 : b = 65536
    · subst hB65
      have hL : mulFixRaw a 65536 = a := by
        unfold mulFixRaw
        rw [if_pos (Or.inr rfl)]
      rw [hL]
      have h1 : (a.natAbs * (65536 : Int).natAbs + 32768) / 65536 = a.natAbs := by
        have h2 : (65536 : Int).natAbs = 65536 := rfl
        rw [h2]
        omega
      rw [h1]
      by_cases hA2 : a < 0
      · rw [if_neg (fun h => absurd (h.mp hA2) (by norm_num))]
        omega
      · rw [if_pos (iff_of_false hA2 (by norm_num))]
        omega
    · by_cases hB0 : b = 0
      · subst hB0
        have hL : mulFixRaw a 0 = 0 := by
          unfold mulFixRaw
          rw [if_neg (by tauto), if_pos rfl]
        rw [hL]
        have hM : (a.natAbs * (0 : Int).natAbs + 32768) / 65536 = 0 := by
          simp
        rw [hM]
        simp
      · have hnor : ¬ (a = 0 ∨ b = 65536) := by tauto
        simp only [mulFixRaw, if_neg hnor, if_neg hB0]
        by_cases hA2 : a < 0 <;> by_cases hB2 : b < 0
        · have hpa : toInt32 (-a) = (a.natAbs : Int) := by
            rw [toInt32_eq_self (by omega) (by omega)]
            omega
          have hpb : toInt32 (-b) = (b.natAbs : Int) := by
            rw [toInt32_eq_self (by omega) (by omega)]
            omega
          have hprod : (a.natAbs : Int) * (b.natAbs : Int) + 32768 =
              ((a.natAbs * b.natAbs + 32768 : Nat) : Int) := by
            push_cast
            ring
          simp only [if_pos hA2, if_pos hB2, hpa, hpb, hprod, fdiv_ofNat65536]
          rw [if_pos (by norm_num), if_pos (iff_of_true hA2 hB2),
            toInt32_eq_self (by omega) (by omega)]
          omega
        · have hpa : toInt32 (-a) = (a.natAbs : Int) := by
            rw [toInt32_eq_self (by omega) (by omega)]
            omega
          have hb' : b = (b.natAbs : Int) := by omega
          have hprod : (a.natAbs : Int) * b + 32768 =
              ((a.natAbs * b.natAbs + 32768 : Nat) : Int) := by
            nth_rewrite 1 [hb']
            push_cast
            ring
          simp only [if_pos hA2, if_neg hB2, hpa, hprod, fdiv_ofNat65536]
          rw [if_neg (by norm_num), if_neg (fun h => absurd (h.mp hA2) hB2),
            toInt32_eq_self (by omega) (by omega)]
          omega
        · have hpb : toInt32 (-b) = (b.natAbs : Int) := by
            rw [toInt32_eq_self (by omega) (by omega)]
            omega
          have ha' : a = (a.natAbs : Int) := by omega
          have hprod : a * (b.natAbs : Int) + 32768 =
              ((a.natAbs * b.natAbs + 32768 : Nat) : Int) := by
            nth_rewrite 1 [ha']
            push_cast
            ring
          simp only [if_neg hA2, if_pos hB2, hpb, hprod, fdiv_ofNat65536]
          rw [if_neg (by norm_num), if_neg (fun h => absurd (h.mpr hB2) hA2),
            toInt32_eq_self (by omega) (by omega)]
          omega
        · have ha' : a = (a.natAbs : Int) := by omega
          have hb' : b = (b.natAbs : Int) := by omega
          have hprod : a * b + 32768 =
              ((a.natAbs * b.natAbs + 32768 : Nat) : Int) := by
            nth_rewrite 1 [ha']
            nth_rewrite 1 [hb']
            push_cast
            ring
          simp only [if_neg hA2, if_neg hB2, hprod, fdiv_ofNat65536]
          rw [if_pos (by norm_num), if_pos (iff_of_false hA2 hB2),
            toInt32_eq_self (by omega) (by omega)]
          omega

/-- Characterisation of `divFixRaw` for a nonzero dividend and a nonzero,
non-unit divisor with representable magnitudes: the result is the
sign-separated rounded quotient `s * ((|v| << 16 + |b| >> 1) / |b|)`. -/
lemma divFixRaw_mag (v b : Int) (hv : v ≠ 0) (hb65 : b ≠ 65536) (hb0 : b ≠ 0)
    (hvr : v.natAbs < 2147483648) (hbr : b.natAbs < 2147483648)
    (hq : (v.natAbs * 65536 + b.natAbs / 2) / b.natAbs < 2147483648) :
    divFixRaw v b =
      (if v < 0 ↔ b < 0 then (1 : Int) else -1) *
        ((v.natAbs * 65536 + b.natAbs / 2) / b.natAbs : Nat) := by
  have hnor : ¬ (v = 0 ∨ b = 65536) := by tauto
  simp only [divFixRaw, if_neg hnor]
  by_cases hA2 : v < 0 <;> by_cases hB2 : b < 0
  · have hpa : toInt32 (-v) = (v.natAbs : Int) := by
      rw [toInt32_eq_self (by omega) (by omega)]
      omega
    have hpb : toInt32 (-b) = (b.natAbs : Int) := by
      rw [toInt32_eq_self (by omega) (by omega)]
      omega
    have hb0' : ¬ ((b.natAbs : Int) = 0) := by omega
    have hnum : (v.natAbs : Int) * 65536 + ((b.natAbs / 2 : Nat) : Int) =
        ((v.natAbs * 65536 + b.natAbs / 2 : Nat) : Int) := by
      push_cast
      ring
    have hemod : ((((v.natAbs * 65536 + b.natAbs / 2) / b.natAbs : Nat) : Int)) % 4294967296 =
        (((v.natAbs * 65536 + b.natAbs / 2) / b.natAbs : Nat) : Int) :=
      Int.emod_eq_of_lt (by positivity) (by omega)
    simp only [if_pos hA2, if_pos hB2, hpa, hpb, if_neg hb0', fdiv_ofNat2, hnum,
      tdiv_ofNat, hemod]
    rw [if_neg (by norm_num), if_pos (iff_of_true hA2 hB2),
      toInt32_eq_self (by omega) (by omega)]
    omega
  · rcases (show ∃ n : Nat, b = (n : Int) from ⟨b.toNat, by omega⟩) with ⟨n, rfl⟩
    simp only [Int.natAbs_ofNat] at hbr hq ⊢
    have hn0 : ¬ ((n : Int) = 0) := by omega
    have hpa : toInt32 (-v) = (v.natAbs : Int) := by
      rw [toInt32_eq_self (by omega) (by omega)]
      omega
    have hnum : (v.natAbs : Int) * 65536 + ((n / 2 : Nat) : Int) =
        ((v.natAbs * 65536 + n / 2 : Nat) : Int) := by
      push_cast
      ring
    have hemod : ((((v.natAbs * 65536 + n / 2) / n : Nat) : Int)) % 4294967296 =
        (((v.natAbs * 65536 + n / 2) / n : Nat) : Int) :=
      Int.emod_eq_of_lt (by positivity) (by omega)
    have hin : toInt32 ((((v.natAbs * 65536 + n / 2) / n : Nat) : Int)) =
        (((v.natAbs * 65536 + n / 2) / n : Nat) : Int) :=
      toInt32_eq_self (by omega) (by omega)
    have hout : toInt32 (-(((v.natAbs * 65536 + n / 2) / n : Nat) : Int)) =
        -(((v.natAbs * 65536 + n / 2) / n : Nat) : Int) :=
      toInt32_eq_self (by omega) (by omega)
    simp only [if_pos hA2, if_neg hB2, hpa, if_neg hn0, fdiv_ofNat2, hnum,
      tdiv_ofNat, hemod]
    rw [if_pos (by norm_num), hin, hout, if_neg (fun h => absurd (h.mp hA2) hB2)]
    omega
  · rcases (show ∃ m : Nat, v = (m : Int) from ⟨v.toNat, by omega⟩) with ⟨m, rfl⟩
    simp only [Int.natAbs_ofNat] at hvr hq ⊢
    have hpb : toInt32 (-b) = (b.natAbs : Int) := by
      rw [toInt32_eq_self (by omega) (by omega)]
      omega
    have hb0' : ¬ ((b.natAbs : Int) = 0) := by omega
    have hnum : ((m : Nat) : Int) * 65536 + ((b.natAbs / 2 : Nat) : Int) =
        ((m * 65536 + b.natAbs / 2 : Nat) : Int) := by
      push_cast
      ring
    have hemod : ((((m * 65536 + b.natAbs / 2) / b.natAbs : Nat) : Int)) % 4294967296 =
        (((m * 65536 + b.natAbs / 2) / b.natAbs : Nat) : Int) :=
      Int.emod_eq_of_lt (by positivity) (by omega)
    have hin : toInt32 ((((m * 65536 + b.natAbs / 2) / b.natAbs : Nat) : Int)) =
        (((m * 65536 + b.natAbs / 2) / b.natAbs : Nat) : Int) :=
      toInt32_eq_self (by omega) (by omega)
    have hout : toInt32 (-(((m * 65536 + b.natAbs / 2) / b.natAbs : Nat) : Int)) =
        -(((m * 65536 + b.natAbs / 2) / b.natAbs : Nat) : Int) :=
      toInt32_eq_self (by omega) (by omega)
    simp only [if_neg hA2, if_pos hB2, hpb, if_neg hb0', fdiv_ofNat2, hnum,
      tdiv_ofNat, hemod]
    rw [if_pos (by norm_num), hin, hout, if_neg (fun h => absurd (h.mpr hB2) hA2)]
    omega
  · rcases (show ∃ m : Nat, v = (m : Int) from ⟨v.toNat, by omega⟩) with ⟨m, rfl⟩
    rcases (show ∃ n : Nat, b = (n : Int) from ⟨b.toNat, by omega⟩) with ⟨n, rfl⟩
    simp only [Int.natAbs_ofNat] at hvr hbr hq ⊢
    have hn0 : ¬ ((n : Int) = 0) := by omega
    have hnum : ((m : Nat) : Int) * 65536 + ((n / 2 : Nat) : Int) =
        ((m * 65536 + n / 2 : Nat) : Int) := by
      push_cast
      ring
    have hemod : ((((m * 65536 + n / 2) / n : Nat) : Int)) % 4294967296 =
        (((m * 65536 + n / 2) / n : Nat) : Int) :=
      Int.emod_eq_of_lt (by positivity) (by omega)
    have hin : toInt32 ((((m * 65536 + n / 2) / n : Nat) : Int)) =
        (((m * 65536 + n / 2) / n : Nat) : Int) :=
      toInt32_eq_self (by omega) (by omega)
    simp only [if_neg hA2, if_neg hB2, if_neg hn0, fdiv_ofNat2, hnum,
      tdiv_ofNat, hemod]
    rw [if_neg (by norm_num), hin, if_pos (iff_of_false hA2 hB2)]
    omega

/-- Arithmetic core of the multiply-then-divide round trip: for divisor
magnitudes of at least one unit (raw `s ≥ 2^16`), the rounded division
exactly undoes the rounded multiplication on magnitudes. -/
lemma divRound (r s : Nat) (hs : 65536 ≤ s) :
    ((r * s + 32768) / 65536 * 65536 + s / 2) / s = r := by
  rcases Nat.eq_or_lt_of_le hs with h | h
  · subst h
    omega
  · apply Nat.div_eq_of_lt_le
    · have h1 : r * s ≤ (r * s + 32768) / 65536 * 65536 + s / 2 := by
        generalize r * s = P
        omega
      exact h1
    · rw [Nat.succ_mul]
      have h2 : (r * s + 32768) / 65536 * 65536 + s / 2 < r * s + s := by
        generalize r * s = P
        omega
      exact h2

/-- Claim C4, counterexample.  The claim asserts saturation for *every*
dividend `a`, but the fast path `if (iValue == 0 || ...) return;` makes
`0 / 0` return raw 0, not the claimed maximum magnitude `0x7FFFFFFF`. -/
theorem c4_zero_dividend_counterexample :
    divFixRaw 0 0 = 0 ∧ divFixRaw 0 0 ≠ 2147483647 := by
  decide

/-- Claim C4 (amended: nonzero dividend).  Dividing a nonzero fixed value by
a fixed value with raw value zero yields the maximum representable magnitude
`0x7FFFFFFF`, negated exactly when the dividend is negative. -/
theorem c4_div_by_zero_saturates (a : Int) (hA : a ≠ 0) :
    divFixRaw a 0 = if a < 0 then -2147483647 else 2147483647 := by
  have hnor : ¬ (a = 0 ∨ (0 : Int) = 65536) := by omega
  have h00 : ¬ ((0 : Int) < 0) := by norm_num
  have hin : toInt32 2147483647 = 2147483647 := by decide
  have hout : toInt32 (-2147483647) = -2147483647 := by decide
  simp only [divFixRaw, if_neg hnor, if_neg h00, if_pos rfl, if_true]
  by_cases hA2 : a < 0
  · rw [if_pos hA2, if_pos (by norm_num), hin, hout, if_pos hA2]
  · rw [if_neg hA2, if_neg (by norm_num), hin, if_neg hA2]

/-- Claim C4, witness: `-1.0 / 0` saturates to the negative maximum. -/
theorem c4_div_by_zero_saturates_witness : divFixRaw (-65536) 0 = -2147483647 := by
  rw [c4_div_by_zero_saturates (-65536) (by decide)]
  decide

/-- Claim C5, counterexample.  The claim asserts the formula for *every*
pair of raw values, but `16384.0 * 16384.0` (raw `2^30` each) overflows: the
64-bit value `(2^60 + 0x8000) >> 16 = 2^44` is truncated by the final
`int32_t` cast to raw 0, which differs from the claimed
`s * ((|a| * |b| + 0x8000) >> 16) = 2^44`. -/
theorem c5_mul_overflow_counterexample :
    mulFixRaw 1073741824 1073741824 = 0 ∧
      Int.fdiv ((1073741824 : Int) * 1073741824 + 32768) 65536 = 17592186044416 := by
  decide

/-- Claim C5 (amended: no overflow).  For raw values whose magnitudes are
below `2^31` and whose rounded magnitude product `(|a| * |b| + 0x8000) >> 16`
is below `2^31`, the product's raw value is exactly
`s * ((|a| * |b| + 0x8000) >> 16)` with `s = +1` iff the operands have the
same sign; in particular the fast paths for a zero operand and a unit
multiplier agree with the general formula. -/
theorem c5_mul_rounds_half_away_from_zero (a b : Int)
    (ha : a.natAbs < 2147483648) (hb : b.natAbs < 2147483648)
    (hm : (a.natAbs * b.natAbs + 32768) / 65536 < 2147483648) :
    mulFixRaw a b =
      (if a < 0 ↔ b < 0 then (1 : Int) else -1) *
        ((a.natAbs * b.natAbs + 32768) / 65536 : Nat) :=
  mulFixRaw_signed a b ha hb hm

/-- Claim C5, witness: `3.0 * -2.0` evaluates to `-6.0` by the formula. -/
theorem c5_mul_rounds_half_away_from_zero_witness :
    mulFixRaw 196608 (-131072) = -393216 := by
  rw [c5_mul_rounds_half_away_from_zero 196608 (-131072) (by decide) (by decide) (by decide)]
  decide

/-- Claim C6, counterexample.  The claim asserts `(a*b)/b ≈ a` within one
unit of least precision for every nonzero `b`, but for the tiny divisor
`b = 2^-16` (raw 1) and `a` with raw value 100000 the round trip returns raw
131072, which is 31072 units away from `a`. -/
theorem c6_small_divisor_counterexample :
    (divFixRaw (mulFixRaw 100000 1) 1 - 100000).natAbs = 31072 ∧
      ¬ ((divFixRaw (mulFixRaw 100000 1) 1 - 100000).natAbs ≤ 1) := by
  decide

/-- Claim C6 (amended: divisor of magnitude at least one unit, no overflow
in the product).  For raw values with `|a| < 2^31`, `2^16 ≤ |b| < 2^31` and
rounded magnitude product below `2^31`, the raw values of `(a*b)/b` and `a`
differ by at most 1. -/
theorem c6_mul_div_within_one_ulp (a b : Int) (ha : a.natAbs < 2147483648)
    (hb1 : 65536 ≤ b.natAbs) (hb2 : b.natAbs < 2147483648)
    (hm : (a.natAbs * b.natAbs + 32768) / 65536 < 2147483648) :
    (divFixRaw (mulFixRaw a b) b - a).natAbs ≤ 1 := by
  by_cases hA : a = 0
  · subst hA
    have h1 : mulFixRaw 0 b = 0 := by
      unfold mulFixRaw
      rw [if_pos (Or.inl rfl)]
    have h2 : divFixRaw 0 b = 0 := by
      unfold divFixRaw
      rw [if_pos (Or.inl rfl)]
    rw [h1, h2]
    simp
  · by_cases hB65 : b = 65536
    · subst hB65
      have h1 : mulFixRaw a 65536 = a := by
        unfold mulFixRaw
        rw [if_pos (Or.inr rfl)]
      have h2 : divFixRaw a 65536 = a := by
        unfold divFixRaw
        rw [if_pos (Or.inr rfl)]
      rw [h1, h2]
      simp
    · have hB0 : b ≠ 0 := by omega
      have hmul := mulFixRaw_signed a b ha hb2 hm
      have hM1 : 1 ≤ (a.natAbs * b.natAbs + 32768) / 65536 := by
        have h1 : 65536 ≤ a.natAbs * b.natAbs :=
          le_trans hb1 (Nat.le_mul_of_pos_left _ (by omega))
        omega
      have hv : mulFixRaw a b ≠ 0 := by
        rw [hmul]
        split_ifs <;> omega
      have hNA : (mulFixRaw a b).natAbs = (a.natAbs * b.natAbs + 32768) / 65536 := by
        rw [hmul]
        split_ifs <;> omega
      have hkey : ((a.natAbs * b.natAbs + 32768) / 65536 * 65536 + b.natAbs / 2) / b.natAbs
          = a.natAbs := divRound a.natAbs b.natAbs hb1
      have hdiv := divFixRaw_mag (mulFixRaw a b) b hv hB65 hB0
        (by rw [hNA]; exact hm) hb2 (by rw [hNA, hkey]; omega)
      rw [hdiv, hNA, hkey]
      by_cases hA2 : a < 0 <;> by_cases hB2 : b < 0
      · have hvpos : ¬ (mulFixRaw a b < 0) := by
          rw [hmul, if_pos (iff_of_true hA2 hB2)]
          omega
        rw [if_neg (fun h => absurd (h.mpr hB2) hvpos)]
        omega
      · have hvneg : mulFixRaw a b < 0 := by
          rw [hmul, if_neg (fun h => absurd (h.mp hA2) hB2)]
          omega
        rw [if_neg (fun h => absurd (h.mp hvneg) hB2)]
        omega
      · have hvneg : mulFixRaw a b < 0 := by
          rw [hmul, if_neg (fun h => absurd (h.mpr hB2) hA2)]
          omega
        rw [if_pos (iff_of_true hvneg hB2)]
        omega
      · have hvpos : ¬ (mulFixRaw a b < 0) := by
          rw [hmul, if_pos (iff_of_false hA2 hB2)]
          omega
        rw [if_pos (iff_of_false hvpos hB2)]
        omega

/-- Claim C6, witness: the round trip at `a` raw 100000 and `b = 2.0`
returns `a` to within one unit. -/
theorem c6_mul_div_within_one_ulp_witness :
    (divFixRaw (mulFixRaw 100000 131072) 131072 - 100000).natAbs ≤ 1 := by
  have h := c6_mul_div_within_one_ulp 100000 131072 (by decide) (by decide) (by decide)
    (by decide)
  exact h

/-! ## Contours and traversal (cartotype_path.h)

`TOutlinePoint` (cartotype_types.h is not part of the sources; the spec's
data model says an outline point is "a coordinate plus a tag: on-curve,
quadratic-control, or cubic-control", and `TContour::Traverse` slices outline
points to plain `TPoint`s) is a point with integer coordinates extended by a
point type.  A traverser object is modelled by the list of drawing primitives
it receives, in call order: `MoveTo/LineTo/QuadraticTo/CubicTo`.

`TContour::Traverse<MTraverser>` (cartotype_path.h lines 513-609) is embedded
for a null clip pointer (`aClip == nullptr`), so the clipping branch at lines
521-526 is not taken; the claims considered here all concern traversal with
no clip region.  The debug-only `assert(iPoint->iType != TPointType::Cubic)`
at line 519 has no release semantics and is not modelled.

Pointer-walk to list-walk correspondence: the C++ loop keeps a cursor `point`
and a bound `limit` (the address of point index `last`, or `last - 1` when
the first point is a quadratic control and the last is on-curve), enters the
loop body only while `point < limit`, and then examines `point + 1`.  Every
read inside the loop is at an index `≤ limit`.  We therefore pass the loop
the list of the points at indices `i .. limit`, where `i` is the index the
body examines next; the loop guard `point < limit` becomes "the list is
nonempty".  After the origin adjustment `point` is `0` (first point
quadratic, since `point--` was executed) or `1` (otherwise), so the initial
list is `dropLast` (limit = last-1, start 0), the whole list (limit = last,
start 0) or `tail` (limit = last, start 1). -/

inductive TPointType
  | onCurve
  | quadratic
  | cubic
  deriving DecidableEq

/-- A point with integer coordinates (`TPoint` of the source). -/
structure TPoint where
  iX : Int
  iY : Int
  deriving DecidableEq

/-- An outline point: a point plus an on-curve/control tag. -/
structure TOutlinePoint extends TPoint where
  iType : TPointType
  deriving DecidableEq

instance : Inhabited TOutlinePoint := ⟨⟨⟨0, 0⟩, TPointType.onCurve⟩⟩

/-- The midpoint computation `((a.iX + b.iX) / 2, (a.iY + b.iY) / 2)` of the
source, used both for the quadratic-start origin and for merging consecutive
quadratic control points.  C++ `/ 2` on `int` truncates towards zero, hence
`Int.tdiv`. -/
def midPoint (p q : TPoint) : TPoint :=
  ⟨Int.tdiv (p.iX + q.iX) 2, Int.tdiv (p.iY + q.iY) 2⟩

/-- A drawing primitive passed to the traverser object: one call to
`MoveTo`, `LineTo`, `QuadraticTo` or `CubicTo`. -/
inductive TTraverseOp
  | MoveTo (aPoint : TPoint)
  | LineTo (aPoint : TPoint)
  | QuadraticTo (aPoint1 aPoint2 : TPoint)
  | CubicTo (aPoint1 aPoint2 aPoint3 : TPoint)
  deriving DecidableEq

/-- The inner `while (point < limit)` loop of the `TPointType::Quadratic`
case of `TContour::Traverse` (lines 568-588): `rest` holds the points after
the current one up to `limit`.  An on-curve point emits a quadratic and
continues the inner loop with the *same* control point (the `continue`
statement at line 578 continues the inner loop); a quadratic point emits a
quadratic to the implied midpoint and makes the new point the control; a
cubic point is an invalid outline and returns; when the loop exhausts, a
final `QuadraticTo(v_control, v_start)` is emitted and traversal returns
(so the closing-line code is never reached from here). -/
def traverseQuadraticRun (vStart : TPoint) : TPoint → List TOutlinePoint → List TTraverseOp
  | vControl, [] => [TTraverseOp.QuadraticTo vControl vStart]
  | vControl, curPoint :: rest =>
    match curPoint.iType with
    | TPointType.onCurve =>
        TTraverseOp.QuadraticTo vControl curPoint.toTPoint ::
          traverseQuadraticRun vStart vControl rest
    | TPointType.quadratic =>
        TTraverseOp.QuadraticTo vControl (midPoint vControl curPoint.toTPoint) ::
          traverseQuadraticRun vStart curPoint.toTPoint rest
    | TPointType.cubic => []

/-- The main `while (point < limit)` loop of `TContour::Traverse`
(lines 560-608) together with the closing-line epilogue.  `rest` holds the
points still below or at `limit` that the loop will examine.  In the cubic
case the source's validity test `point + 1 > limit || point->iType !=
TPointType::Cubic` reduces to `point + 1 > limit` (i.e. `rest.tail = []`
before consuming the pair), because `point->iType` is the scrutinee that
selected this very case and is always `TPointType::Cubic`; the second
disjunct is vacuous.  The two points after the cubic control are consumed as
`vec1`/`vec2` without any type check, and the end point is the following
point if it is within `limit`, else `v_start`. -/
def traverseLoop (vStart vLast : TPoint) (aClosed : Bool) :
    List TOutlinePoint → List TTraverseOp
  | [] => if aClosed ∧ vLast ≠ vStart then [TTraverseOp.LineTo vStart] else []
  | point :: rest =>
    match point.iType with
    | TPointType.onCurve =>
        TTraverseOp.LineTo point.toTPoint :: traverseLoop vStart vLast aClosed rest
    | TPointType.quadratic => traverseQuadraticRun vStart point.toTPoint rest
    | TPointType.cubic =>
      match rest with
      | [] => []
      | vec2 :: rest2 =>
        match rest2 with
        | [] => [TTraverseOp.CubicTo point.toTPoint vec2.toTPoint vStart]
        | p3 :: rest3 =>
            TTraverseOp.CubicTo point.toTPoint vec2.toTPoint p3.toTPoint ::
              traverseLoop vStart vLast aClosed rest3

/-- `TContour::Traverse` with `aClip == nullptr`: fewer than two points emit
nothing; a leading quadratic control point moves the origin to the last
point (when that is on-curve, also lowering `limit` by one) or to the
midpoint of first and last (recorded as both `v_start` and `v_last`); then
`MoveTo(v_start)` is emitted and the loop runs. -/
def Traverse (aPoint : List TOutlinePoint) (aClosed : Bool) : List TTraverseOp :=
  if aPoint.length < 2 then []
  else
    let vStart := (aPoint.headD default).toTPoint
    let vLast := (aPoint.getLastD default).toTPoint
    if (aPoint.headD default).iType = TPointType.quadratic then
      if (aPoint.getLastD default).iType = TPointType.onCurve then
        TTraverseOp.MoveTo vLast :: traverseLoop vLast vLast aClosed aPoint.dropLast
      else
        TTraverseOp.MoveTo (midPoint vStart vLast) ::
          traverseLoop (midPoint vStart vLast) (midPoint vStart vLast) aClosed aPoint
    else
      TTraverseOp.MoveTo vStart :: traverseLoop vStart vLast aClosed aPoint.tail

lemma traverseLoop_onCurve (vStart vLast : TPoint) (aClosed : Bool)
    (rest : List TOutlinePoint) (h : ∀ p ∈ rest, p.iType = TPointType.onCurve) :
    traverseLoop vStart vLast aClosed rest =
      rest.map (fun p => TTraverseOp.LineTo p.toTPoint) ++
        (if aClosed ∧ vLast ≠ vStart then [TTraverseOp.LineTo vStart] else []) := by
  induction rest with
  | nil => simp [traverseLoop]
  | cons p rest ih =>
    have hp : p.iType = TPointType.onCurve := h p (List.mem_cons_self p rest)
    obtain ⟨pt, ty⟩ := p
    simp only at hp
    subst hp
    simp only [traverseLoop]
    rw [ih (fun q hq => h q (List.mem_cons_of_mem _ hq))]
    simp

/-- Claim C1.  Traversing a contour whose points are all on-curve, with no
clip region: fewer than 2 points emit nothing; otherwise the output is
exactly `MoveTo(first)`, then `LineTo` for each subsequent point in array
order, plus a final `LineTo(first)` iff the contour is closed and its last
point differs from its first. -/
theorem c1_traverse_no_curves (pts : List TOutlinePoint) (aClosed : Bool)
    (h : ∀ p ∈ pts, p.iType = TPointType.onCurve) :
    Traverse pts aClosed =
      if pts.length < 2 then []
      else TTraverseOp.MoveTo (pts.headD default).toTPoint ::
        (pts.tail.map (fun p => TTraverseOp.LineTo p.toTPoint) ++
          (if aClosed ∧ (pts.getLastD default).toTPoint ≠ (pts.headD default).toTPoint
            then [TTraverseOp.LineTo (pts.headD default).toTPoint] else [])) := by
  by_cases hlen : pts.length < 2
  · simp [Traverse, hlen]
  · have hhead : (pts.headD default).iType = TPointType.onCurve := by
      cases pts with
      | nil => simp at hlen
      | cons p rest => exact h p (List.mem_cons_self p rest)
    have htail : ∀ q ∈ pts.tail, q.iType = TPointType.onCurve := by
      cases pts with
      | nil => simp
      | cons p rest => exact fun q hq => h q (List.mem_cons_of_mem p hq)
    simp only [Traverse, if_neg hlen]
    rw [if_neg (by simp only [hhead]; decide), traverseLoop_onCurve _ _ _ _ htail]

/-- Claim C1, witness: a closed all-on-curve triangle emits move, two lines
and the closing line. -/
theorem c1_traverse_no_curves_witness :
    Traverse [⟨⟨0, 0⟩, TPointType.onCurve⟩, ⟨⟨2, 0⟩, TPointType.onCurve⟩,
        ⟨⟨2, 2⟩, TPointType.onCurve⟩] true =
      [TTraverseOp.MoveTo ⟨0, 0⟩, TTraverseOp.LineTo ⟨2, 0⟩, TTraverseOp.LineTo ⟨2, 2⟩,
        TTraverseOp.LineTo ⟨0, 0⟩] := by
  have h := c1_traverse_no_curves [⟨⟨0, 0⟩, TPointType.onCurve⟩,
    ⟨⟨2, 0⟩, TPointType.onCurve⟩, ⟨⟨2, 2⟩, TPointType.onCurve⟩] true (by decide)
  exact h.trans (by decide)

lemma cons_getLast?_of_ne_nil {α : Type _} (x : α) (l : List α) (h : l ≠ []) :
    (x :: l).getLast? = l.getLast? := by
  cases l with
  | nil => exact absurd rfl h
  | cons y ys => rfl

lemma traverseQuadraticRun_getLast (vStart : TPoint) (rest : List TOutlinePoint) :
    ∀ vControl, (∀ p ∈ rest, p.iType ≠ TPointType.cubic) →
      ∃ c, (traverseQuadraticRun vStart vControl rest).getLast? =
        some (TTraverseOp.QuadraticTo c vStart) := by
  induction rest with
  | nil => exact fun vc _ => ⟨vc, rfl⟩
  | cons p rest ih =>
    intro vc h
    have hp : p.iType ≠ TPointType.cubic := h p (List.mem_cons_self p rest)
    have hr : ∀ q ∈ rest, q.iType ≠ TPointType.cubic :=
      fun q hq => h q (List.mem_cons_of_mem p hq)
    obtain ⟨pt, ty⟩ := p
    cases ty with
    | onCurve =>
      obtain ⟨c, hc⟩ := ih vc hr
      have hne : traverseQuadraticRun vStart vc rest ≠ [] := by
        intro hnil
        rw [hnil] at hc
        simp at hc
      refine ⟨c, ?_⟩
      simp only [traverseQuadraticRun]
      rw [cons_getLast?_of_ne_nil _ _ hne, hc]
    | quadratic =>
      obtain ⟨c, hc⟩ := ih pt hr
      have hne : traverseQuadraticRun vStart pt rest ≠ [] := by
        intro hnil
        rw [hnil] at hc
        simp at hc
      refine ⟨c, ?_⟩
      simp only [traverseQuadraticRun]
      rw [cons_getLast?_of_ne_nil _ _ hne, hc]
    | cubic => simp at hp

lemma traverse_quadStart_getLast (pt0 : TPoint) (rest : List TOutlinePoint) (vS vL : TPoint)
    (aClosed : Bool) (hnc : ∀ q ∈ rest, q.iType ≠ TPointType.cubic) :
    ∃ c, (TTraverseOp.MoveTo vS :: traverseLoop vS vL aClosed
        ((⟨pt0, TPointType.quadratic⟩ : TOutlinePoint) :: rest)).getLast? =
      some (TTraverseOp.QuadraticTo c vS) := by
  obtain ⟨c, hc⟩ := traverseQuadraticRun_getLast vS rest pt0 hnc
  have hne : traverseQuadraticRun vS pt0 rest ≠ [] := by
    intro hnil
    rw [hnil] at hc
    simp at hc
  refine ⟨c, ?_⟩
  simp only [traverseLoop]
  rw [cons_getLast?_of_ne_nil _ _ hne, hc]

/-- Claim C2.  For a contour of at least 2 points whose first point is a
quadratic control point: if the last point is on-curve, the emitted `MoveTo`
is to the last point; if the last point is also a quadratic control point,
the emitted `MoveTo` is to the component-wise (truncating) midpoint of first
and last, and — whenever the contour contains no cubic control point, so the
quadratic run completes — the final emitted primitive is a curve returning
to that midpoint. -/
theorem c2_quadratic_start_origin (pts : List TOutlinePoint) (aClosed : Bool)
    (hlen : 2 ≤ pts.length)
    (hq0 : (pts.headD default).iType = TPointType.quadratic) :
    ((pts.getLastD default).iType = TPointType.onCurve →
      (Traverse pts aClosed).head? =
        some (TTraverseOp.MoveTo (pts.getLastD default).toTPoint)) ∧
    ((pts.getLastD default).iType = TPointType.quadratic →
      ((Traverse pts aClosed).head? =
        some (TTraverseOp.MoveTo
          (midPoint (pts.headD default).toTPoint (pts.getLastD default).toTPoint)) ∧
      ((∀ p ∈ pts, p.iType ≠ TPointType.cubic) →
        ∃ c, (Traverse pts aClosed).getLast? =
          some (TTraverseOp.QuadraticTo c
            (midPoint (pts.headD default).toTPoint (pts.getLastD default).toTPoint))))) := by
  have hlen2 : ¬ pts.length < 2 := by omega
  refine ⟨?_, ?_⟩
  · intro hlast
    simp only [Traverse, if_neg hlen2, if_pos hq0, if_pos hlast, List.head?_cons]
  · intro hlast
    have hlastne : ¬ (pts.getLastD default).iType = TPointType.onCurve := by
      simp only [hlast]
      decide
    refine ⟨?_, ?_⟩
    · simp only [Traverse, if_neg hlen2, if_pos hq0, if_neg hlastne, List.head?_cons]
    · intro hnc
      obtain ⟨p0, rest, rfl⟩ : ∃ p0 rest, pts = p0 :: rest := by
        cases pts with
        | nil => simp at hlen
        | cons a l => exact ⟨a, l, rfl⟩
      have hp0 : p0.iType = TPointType.quadratic := by simpa using hq0
      obtain ⟨pt0, ty0⟩ := p0
      simp only at hp0
      subst hp0
      simp only [Traverse, if_neg hlen2, if_pos hq0, if_neg hlastne]
      exact traverse_quadStart_getLast pt0 rest _ _ aClosed
        (fun q hq => hnc q (List.mem_cons_of_mem _ hq))

/-- Claim C2, witness: the two-point contour with both points quadratic
controls starts at their midpoint and the final curve returns to it. -/
theorem c2_quadratic_start_origin_witness :
    (Traverse [⟨⟨0, 0⟩, TPointType.quadratic⟩, ⟨⟨4, 0⟩, TPointType.quadratic⟩]
        false).head? = some (TTraverseOp.MoveTo ⟨2, 0⟩) ∧
    ∃ c, (Traverse [⟨⟨0, 0⟩, TPointType.quadratic⟩, ⟨⟨4, 0⟩, TPointType.quadratic⟩]
        false).getLast? = some (TTraverseOp.QuadraticTo c ⟨2, 0⟩) := by
  have h := (c2_quadratic_start_origin
    [⟨⟨0, 0⟩, TPointType.quadratic⟩, ⟨⟨4, 0⟩, TPointType.quadratic⟩] false
    (by decide) (by decide)).2 (by decide)
  refine ⟨h.1.trans rfl, ?_⟩
  obtain ⟨c, hc⟩ := h.2 (by decide)
  exact ⟨c, hc.trans rfl⟩

/-- Claim C3.  Evaluation of the code at the failing input
`[(0,0) on-curve, (4,4) cubic, (8,0) on-curve]`, open, no clip: a lone cubic
control point is not in a pair and is not followed validly, so per the claim
traversal should stop after `MoveTo(0,0)`; the code instead consumes the
on-curve point `(8,0)` as a second cubic control and emits
`CubicTo((4,4),(8,0),(0,0))`, because its validity test compares the
*current* point's type with `Cubic` (always true in this branch) where
FreeType's original tests the *next* point's tag. -/
theorem c3_lone_cubic_emits_bogus_cubic :
    Traverse [⟨⟨0, 0⟩, TPointType.onCurve⟩, ⟨⟨4, 4⟩, TPointType.cubic⟩,
        ⟨⟨8, 0⟩, TPointType.onCurve⟩] false =
      [TTraverseOp.MoveTo ⟨0, 0⟩, TTraverseOp.CubicTo ⟨4, 4⟩ ⟨8, 0⟩ ⟨0, 0⟩] := by
  decide

/-! ## Owned contours (`CContour`, cartotype_path.h) -/

/-- An owned contour: a vector of outline points plus a closed flag
(`CContour`, cartotype_path.h lines 316-422). -/
structure CContour where
  iPoint : List TOutlinePoint
  iClosed : Bool
  deriving DecidableEq

/-- Modelled from the spec: `TOutlinePoint::operator==`, used by
`CContour::AppendPoint`, is declared in cartotype_types.h, which is not
among the source files.  The spec's data model describes an outline point as
"a coordinate plus a tag: on-curve, quadratic-control, or cubic-control", so
value equality compares the coordinate pair and the tag, i.e. structural
equality. -/
def outlinePointEq (p q : TOutlinePoint) : Bool :=
  decide (p = q)

/-- `CContour::Reverse` (line 396): `std::reverse` of the point vector; the
closed flag is untouched. -/
def CContour.Reverse (c : CContour) : CContour :=
  { c with iPoint := c.iPoint.reverse }

/-- `CContour::AppendPoint(const TOutlinePoint&)` (lines 339-344): do
nothing when the contour is nonempty, the new point is on-curve, and it
equals the current last point (`iPoint.back()`); otherwise push it at the
end. -/
def CContour.AppendPoint (c : CContour) (aPoint : TOutlinePoint) : CContour :=
  if c.iPoint.length ≠ 0 ∧ aPoint.iType = TPointType.onCurve ∧
      outlinePointEq aPoint (c.iPoint.getLastD default) = true then c
  else { c with iPoint := c.iPoint ++ [aPoint] }

/-- The shape `CContour::AppendPoint` preserves: no two consecutive points
are equal with the second one on-curve. -/
def NoOnCurveDuplicate (l : List TOutlinePoint) : Prop :=
  List.Chain' (fun a b => ¬ (b.iType = TPointType.onCurve ∧ a = b)) l

/-! ## Geometry objects (`CGeneralGeometry`, cartotype_geometry.h)

`CGeneralGeometry<point_t>` is a template over the point type; the embedding
is likewise polymorphic in `pt`.  Its contours are plain vectors of points
(no per-contour closed flag), with a single coordinate type and closed flag.
`TWritableCoordSet` is a writable view of one contour's coordinates, so the
injected conversion function of `ConvertCoords` is modelled as a function
from the contour's point list to an error code and the updated point list. -/

/-- Modelled from the spec: `TCoordType` (declared outside the given source
files) enumerates the coordinate systems of a geometry, e.g. projected map
units and geographic degrees; the code here needs only the default `Map`,
some distinct alternatives, and decidable equality. -/
inductive TCoordType
  | Map
  | Degree
  | Display
  | Screen
  deriving DecidableEq

/-- Modelled from the spec: `TResult` and `KErrorNone` come from
cartotype_errors.h, which is not among the source files.  Error codes are
numbers; the success code is zero, as forced by the code's nonzero test
`if (error) return error;`. -/
def KErrorNone : Nat := 0

/-- `CGeneralGeometry<point_t>` (cartotype_geometry.h lines 17-165):
the contour array is initialised to one (empty) contour by the member
initialiser `std::vector<contour_t>(1)`. -/
structure CGeneralGeometry (pt : Type) where
  m_contour_array : List (List pt)
  m_coord_type : TCoordType
  m_closed : Bool

/-- The state every constructor establishes: one empty contour and the
given coordinate type and closed flag (the default constructor and the
`(TCoordType, bool)` constructor; the rectangle, point, path and map-object
constructors start from this state and then call `BeginContour` /
`AppendPoint`). -/
def CGeneralGeometry.init (pt : Type) (aCoordType : TCoordType) (aClosed : Bool) :
    CGeneralGeometry pt :=
  ⟨[[]], aCoordType, aClosed⟩

/-- `CGeneralGeometry::Clear` (line 84): resize the contour array to one
contour, empty it, and reset coordinate type and closed flag. -/
def CGeneralGeometry.Clear {pt : Type} (_g : CGeneralGeometry pt) : CGeneralGeometry pt :=
  ⟨[[]], TCoordType.Map, false⟩

/-- `CGeneralGeometry::SetClosed` (line 100). -/
def CGeneralGeometry.SetClosed {pt : Type} (g : CGeneralGeometry pt) (aClosed : Bool) :
    CGeneralGeometry pt :=
  { g with m_closed := aClosed }

/-- `CGeneralGeometry::BeginContour` (line 135): start a new contour unless
the current (last) contour is empty.  `back()` of the always-nonempty array
is modelled totally by `getLastD []`. -/
def CGeneralGeometry.BeginContour {pt : Type} (g : CGeneralGeometry pt) :
    CGeneralGeometry pt :=
  if (g.m_contour_array.getLastD []).isEmpty then g
  else { g with m_contour_array := g.m_contour_array ++ [[]] }

/-- `CGeneralGeometry::AppendPoint` (lines 129-133; the three overloads all
push one point onto the last contour): `m_contour_array.back().push_back`. -/
def CGeneralGeometry.AppendPoint {pt : Type} (g : CGeneralGeometry pt) (aPoint : pt) :
    CGeneralGeometry pt :=
  { g with m_contour_array :=
      g.m_contour_array.dropLast ++ [g.m_contour_array.getLastD [] ++ [aPoint]] }

/-- Writing one point through the non-const accessor
`CGeneralGeometry::Point(aContourIndex, aPointIndex)` (line 94). -/
def CGeneralGeometry.SetPoint {pt : Type} (g : CGeneralGeometry pt)
    (aContourIndex aPointIndex : Nat) (aPoint : pt) : CGeneralGeometry pt :=
  { g with m_contour_array := (g.m_contour_array.set aContourIndex
      ((g.m_contour_array.getD aContourIndex []).set aPointIndex aPoint)) }

/-- `CGeneralGeometry::Reverse` (lines 137-142): reverse the order of the
contours, then reverse each contour. -/
def CGeneralGeometry.Reverse {pt : Type} (g : CGeneralGeometry pt) : CGeneralGeometry pt :=
  { g with m_contour_array := g.m_contour_array.reverse.map List.reverse }

/-- The `for (i = 0; i < contour_count; i++)` loop of
`CGeneralGeometry::ConvertCoords` (lines 149-156): apply the conversion
function to each contour's coordinate set in index order and return the
first nonzero error immediately.  The loop is instrumented with the list of
contour indices on which the function is invoked, in invocation order, so
that the number and order of the calls are observable. -/
def convertCoordsLoop {pt : Type} (f : List pt → Nat × List pt) :
    Nat → List (List pt) → Nat × List (List pt) × List Nat
  | _, [] => (KErrorNone, [], [])
  | i, c :: rest =>
    let r := f c
    if r.1 ≠ 0 then (r.1, r.2 :: rest, [i])
    else
      let r2 := convertCoordsLoop f (i + 1) rest
      (r2.1, r.2 :: r2.2.1, i :: r2.2.2)

/-- `CGeneralGeometry::ConvertCoords` (lines 143-158): if the target
coordinate type equals the current one, return `KErrorNone` immediately;
otherwise set the coordinate type, then convert each contour in index order,
propagating the first failure.  Returns the result code, the resulting
geometry, and the instrumented invocation-index list. -/
def CGeneralGeometry.ConvertCoords {pt : Type} (g : CGeneralGeometry pt)
    (aToCoordType : TCoordType) (aConvertFunction : List pt → Nat × List pt) :
    Nat × CGeneralGeometry pt × List Nat :=
  if g.m_coord_type = aToCoordType then (KErrorNone, g, [])
  else
    let r := convertCoordsLoop aConvertFunction 0 g.m_contour_array
    (r.1, { g with m_contour_array := r.2.1, m_coord_type := aToCoordType }, r.2.2)

/-- Claim C7.  Reversing a closed contour twice restores it exactly (same
points, same order, same closed flag and point types), and likewise for
`CGeneralGeometry::Reverse` on a closed geometry. -/
theorem c7_reverse_involution :
    (∀ c : CContour, c.iClosed = true → c.Reverse.Reverse = c) ∧
    (∀ (pt : Type) (g : CGeneralGeometry pt), g.m_closed = true →
      g.Reverse.Reverse = g) := by
  constructor
  · intro c _
    cases c
    simp [CContour.Reverse]
  · intro pt g _
    cases g
    simp [CGeneralGeometry.Reverse, List.map_reverse, List.map_map, Function.comp]

/-- Claim C7, witness: a concrete closed contour and closed geometry each
return to themselves after two reversals. -/
theorem c7_reverse_involution_witness :
    (CContour.Reverse (CContour.Reverse
        ⟨[⟨⟨0, 0⟩, TPointType.onCurve⟩, ⟨⟨1, 2⟩, TPointType.quadratic⟩,
          ⟨⟨3, 0⟩, TPointType.onCurve⟩], true⟩) =
      ⟨[⟨⟨0, 0⟩, TPointType.onCurve⟩, ⟨⟨1, 2⟩, TPointType.quadratic⟩,
          ⟨⟨3, 0⟩, TPointType.onCurve⟩], true⟩) ∧
    (CGeneralGeometry.Reverse (CGeneralGeometry.Reverse
        (⟨[[(1 : Int), 2], [3]], TCoordType.Map, true⟩ : CGeneralGeometry Int)) =
      ⟨[[(1 : Int), 2], [3]], TCoordType.Map, true⟩) :=
  ⟨c7_reverse_involution.1 _ rfl, c7_reverse_involution.2 Int _ rfl⟩

lemma getLast?_eq_some_getLastD {α : Type _} [Inhabited α] (l : List α) (h : l ≠ []) :
    l.getLast? = some (l.getLastD default) := by
  cases hl : l.getLast? with
  | none => exact absurd (List.getLast?_eq_none_iff.mp hl) h
  | some x =>
    rw [List.getLastD_eq_getLast?, hl]
    rfl

lemma outlinePointEq_getLastD_iff (l : List TOutlinePoint) (p : TOutlinePoint)
    (h : l ≠ []) :
    (outlinePointEq p (l.getLastD default) = true) ↔ l.getLast? = some p := by
  rw [getLast?_eq_some_getLastD l h]
  simp [outlinePointEq, eq_comm]

/-- Claim C9.  `CContour::AppendPoint`: when the contour is nonempty and the
appended point is an on-curve point equal to the current last point, the
contour is unchanged; in every other case (empty contour, control point, or
differing point) the point is appended at the end; consequently appending
never creates a consecutive duplicate pair whose second member is on-curve,
while duplicate control points are retained (second conjunct with a control
point). -/
theorem c9_append_point_dedup (c : CContour) (p : TOutlinePoint) :
    (c.iPoint ≠ [] → p.iType = TPointType.onCurve → c.iPoint.getLast? = some p →
      c.AppendPoint p = c) ∧
    ((c.iPoint = [] ∨ p.iType ≠ TPointType.onCurve ∨ c.iPoint.getLast? ≠ some p) →
      (c.AppendPoint p).iPoint = c.iPoint ++ [p] ∧
        (c.AppendPoint p).iClosed = c.iClosed) ∧
    (NoOnCurveDuplicate c.iPoint → NoOnCurveDuplicate (c.AppendPoint p).iPoint) := by
  refine ⟨?_, ?_, ?_⟩
  · intro h1 h2 h3
    unfold CContour.AppendPoint
    rw [if_pos ⟨by simpa using (List.length_pos.mpr h1).ne', h2,
      (outlinePointEq_getLastD_iff _ _ h1).mpr h3⟩]
  · intro hdisj
    have hcond : ¬ (c.iPoint.length ≠ 0 ∧ p.iType = TPointType.onCurve ∧
        outlinePointEq p (c.iPoint.getLastD default) = true) := by
      rintro ⟨h1, h2, h3⟩
      have hne : c.iPoint ≠ [] := by
        intro hnil
        rw [hnil] at h1
        simp at h1
      rcases hdisj with h | h | h
      · exact hne h
      · exact h h2
      · exact h ((outlinePointEq_getLastD_iff _ _ hne).mp h3)
    unfold CContour.AppendPoint
    rw [if_neg hcond]
    exact ⟨rfl, rfl⟩
  · intro hch
    unfold CContour.AppendPoint
    split_ifs with h
    · exact hch
    · refine List.chain'_append.mpr ⟨hch, List.chain'_singleton p, ?_⟩
      intro x hx y hy
      have hyp : p = y := by simpa using hy
      subst hyp
      rintro ⟨hon, heq⟩
      have hne : c.iPoint ≠ [] := by
        intro hnil
        rw [hnil] at hx
        simp at hx
      have hgl : c.iPoint.getLast? = some x := Option.mem_def.mp hx
      exact h ⟨by simpa using (List.length_pos.mpr hne).ne', hon,
        (outlinePointEq_getLastD_iff _ _ hne).mpr (by rw [hgl, heq])⟩

/-- Claim C9, witness: appending an equal on-curve point is a no-op, while
an equal control point is retained. -/
theorem c9_append_point_dedup_witness :
    CContour.AppendPoint ⟨[⟨⟨1, 1⟩, TPointType.onCurve⟩], false⟩
        ⟨⟨1, 1⟩, TPointType.onCurve⟩ =
      ⟨[⟨⟨1, 1⟩, TPointType.onCurve⟩], false⟩ ∧
    (CContour.AppendPoint ⟨[⟨⟨1, 1⟩, TPointType.quadratic⟩], false⟩
        ⟨⟨1, 1⟩, TPointType.quadratic⟩).iPoint =
      [⟨⟨1, 1⟩, TPointType.quadratic⟩, ⟨⟨1, 1⟩, TPointType.quadratic⟩] := by
  constructor
  · exact (c9_append_point_dedup _ _).1 (by decide) (by decide) (by decide)
  · have h := (c9_append_point_dedup
      ⟨[⟨⟨1, 1⟩, TPointType.quadratic⟩], false⟩
      ⟨⟨1, 1⟩, TPointType.quadratic⟩).2.1 (Or.inr (Or.inl (by decide)))
    exact h.1.trans (by decide)

lemma convertCoordsLoop_ok {pt : Type} (f : List pt → Nat × List pt) :
    ∀ (l : List (List pt)) (i : Nat), (∀ c ∈ l, (f c).1 = 0) →
      convertCoordsLoop f i l = (KErrorNone, l.map (fun c => (f c).2), List.range' i l.length) := by
  intro l
  induction l with
  | nil =>
    intro i _
    simp [convertCoordsLoop]
  | cons c rest ih =>
    intro i h
    have hc : (f c).1 = 0 := h c (List.mem_cons_self c rest)
    simp only [convertCoordsLoop, hc]
    rw [if_neg (by simp), ih (i + 1) (fun d hd => h d (List.mem_cons_of_mem c hd))]
    simp [List.range'_succ, KErrorNone]

lemma convertCoordsLoop_err {pt : Type} (f : List pt → Nat × List pt) :
    ∀ (l : List (List pt)) (i k : Nat), k < l.length →
      (∀ j, j < k → (f (l.getD j [])).1 = 0) →
      (f (l.getD k [])).1 ≠ 0 →
      (convertCoordsLoop f i l).1 = (f (l.getD k [])).1 ∧
        (convertCoordsLoop f i l).2.2 = List.range' i (k + 1) := by
  intro l
  induction l with
  | nil =>
    intro i k hk
    simp at hk
  | cons c rest ih =>
    intro i k hk hpre herr
    cases k with
    | zero =>
      have herr0 : (f c).1 ≠ 0 := by simpa using herr
      simp only [convertCoordsLoop]
      rw [if_pos herr0]
      simp [List.range'_succ]
    | succ k =>
      have hc : (f c).1 = 0 := by simpa using hpre 0 (Nat.succ_pos k)
      have hk2 : k < rest.length := by simpa using hk
      have hpre2 : ∀ j, j < k → (f (rest.getD j [])).1 = 0 := by
        intro j hj
        simpa using hpre (j + 1) (by omega)
      have herr2 : (f (rest.getD k [])).1 ≠ 0 := by simpa using herr
      obtain ⟨h1, h2⟩ := ih (i + 1) k hk2 hpre2 herr2
      simp only [convertCoordsLoop, hc]
      rw [if_neg (by simp)]
      refine ⟨by simpa using h1, ?_⟩
      simp only [List.getD_cons_succ] at h2 ⊢
      simp [h2, List.range'_succ]

/-- Claim C8.  `CGeneralGeometry::ConvertCoords` with a target coordinate
type equal to the current one returns `KErrorNone` without invoking the
conversion function (empty invocation trace) or changing the geometry;
otherwise it invokes the function exactly once per contour in index order
(trace `[0, ..., n-1]`) when every invocation succeeds, and stops at the
first failing contour `k`, returning that contour's error with trace
`[0, ..., k]`. -/
theorem c8_convert_coords_per_contour {pt : Type} (g : CGeneralGeometry pt)
    (f : List pt → Nat × List pt) (t : TCoordType) :
    (g.ConvertCoords g.m_coord_type f = (KErrorNone, g, [])) ∧
    (t ≠ g.m_coord_type →
      ((∀ c ∈ g.m_contour_array, (f c).1 = KErrorNone) →
        (g.ConvertCoords t f).1 = KErrorNone ∧
          (g.ConvertCoords t f).2.2 = List.range g.m_contour_array.length) ∧
      (∀ k, k < g.m_contour_array.length →
        (∀ j, j < k → (f (g.m_contour_array.getD j [])).1 = KErrorNone) →
        (f (g.m_contour_array.getD k [])).1 ≠ KErrorNone →
        (g.ConvertCoords t f).1 = (f (g.m_contour_array.getD k [])).1 ∧
          (g.ConvertCoords t f).2.2 = List.range' 0 (k + 1))) := by
  constructor
  · unfold CGeneralGeometry.ConvertCoords
    rw [if_pos rfl]
  · intro ht
    have hne : ¬ (g.m_coord_type = t) := fun h => ht h.symm
    constructor
    · intro hok
      have h := convertCoordsLoop_ok f g.m_contour_array 0
        (by simpa [KErrorNone] using hok)
      simp only [CGeneralGeometry.ConvertCoords, if_neg hne, h, List.range_eq_range']
      constructor <;> trivial
    · intro k hk hpre herr
      obtain ⟨h1, h2⟩ := convertCoordsLoop_err f g.m_contour_array 0 k hk
        (by simpa [KErrorNone] using hpre) (by simpa [KErrorNone] using herr)
      simp only [CGeneralGeometry.ConvertCoords, if_neg hne]
      exact ⟨h1, h2⟩

/-- Claim C8, witness: a two-contour geometry in map coordinates; converting
to map coordinates is a no-op with no invocations, converting to degrees
with an always-succeeding function calls it once per contour in order, and
with a function failing on contour 0 the error is propagated with a
one-entry trace. -/
theorem c8_convert_coords_per_contour_witness :
    ((⟨[[(1 : Int), 2], [3]], TCoordType.Map, false⟩ : CGeneralGeometry Int).ConvertCoords
        TCoordType.Map (fun c => (0, c)) =
      (KErrorNone, ⟨[[(1 : Int), 2], [3]], TCoordType.Map, false⟩, [])) ∧
    ((⟨[[(1 : Int), 2], [3]], TCoordType.Map, false⟩ : CGeneralGeometry Int).ConvertCoords
        TCoordType.Degree (fun c => (0, c.map (· + 1)))).2.2 = List.range 2 ∧
    ((⟨[[(1 : Int), 2], [3]], TCoordType.Map, false⟩ : CGeneralGeometry Int).ConvertCoords
        TCoordType.Degree (fun _ => (7, []))).1 = 7 := by
  refine ⟨?_, ?_, ?_⟩
  · exact (c8_convert_coords_per_contour
      (⟨[[(1 : Int), 2], [3]], TCoordType.Map, false⟩ : CGeneralGeometry Int)
      (fun c => (0, c)) TCoordType.Map).1
  · exact (((c8_convert_coords_per_contour
      (⟨[[(1 : Int), 2], [3]], TCoordType.Map, false⟩ : CGeneralGeometry Int)
      (fun c => (0, c.map (· + 1))) TCoordType.Degree).2 (by decide)).1
        (by decide)).2
  · exact (((c8_convert_coords_per_contour
      (⟨[[(1 : Int), 2], [3]], TCoordType.Map, false⟩ : CGeneralGeometry Int)
      (fun _ => (7, [])) TCoordType.Degree).2 (by decide)).2 0 (by decide)
        (by omega) (by decide)).1

/-! ## Reachable geometry states (claim C10)

`Reachable` closes the constructed states under every operation of
`CGeneralGeometry` that touches the contour array or could be interleaved
with it.  The rectangle, single-point, path-copying and map-object
constructors all start from `init` and then call `BeginContour` /
`AppendPoint`, so they are covered by closure. -/

inductive Reachable {pt : Type} : CGeneralGeometry pt → Prop
  | init (t : TCoordType) (closed : Bool) : Reachable (CGeneralGeometry.init pt t closed)
  | clear (g : CGeneralGeometry pt) : Reachable g → Reachable g.Clear
  | setClosed (g : CGeneralGeometry pt) (b : Bool) : Reachable g → Reachable (g.SetClosed b)
  | beginContour (g : CGeneralGeometry pt) : Reachable g → Reachable g.BeginContour
  | appendPoint (g : CGeneralGeometry pt) (p : pt) : Reachable g → Reachable (g.AppendPoint p)
  | setPoint (g : CGeneralGeometry pt) (i j : Nat) (p : pt) :
      Reachable g → Reachable (g.SetPoint i j p)
  | reverse (g : CGeneralGeometry pt) : Reachable g → Reachable g.Reverse
  | convertCoords (g : CGeneralGeometry pt) (t : TCoordType) (f : List pt → Nat × List pt) :
      Reachable g → Reachable (g.ConvertCoords t f).2.1

lemma convertCoordsLoop_length {pt : Type} (f : List pt → Nat × List pt) :
    ∀ (l : List (List pt)) (i : Nat), (convertCoordsLoop f i l).2.1.length = l.length := by
  intro l
  induction l with
  | nil =>
    intro i
    simp [convertCoordsLoop]
  | cons c rest ih =>
    intro i
    simp only [convertCoordsLoop]
    split_ifs with h
    · simp
    · simp [ih (i + 1)]

/-- Claim C10.  Every `CGeneralGeometry` object holds at least one contour:
construction yields exactly one (empty) contour, `Clear` resets to exactly
one empty contour, `BeginContour` only ever adds a contour and is a no-op
when the last contour is empty, and every reachable state has
`ContourCount() >= 1`, so the accesses to contour index 0 in `IsEmpty` and
`Bounds` never index an empty array. -/
theorem c10_at_least_one_contour :
    (∀ (pt : Type) (t : TCoordType) (b : Bool),
      (CGeneralGeometry.init pt t b).m_contour_array = [[]]) ∧
    (∀ (pt : Type) (g : CGeneralGeometry pt), g.Clear.m_contour_array = [[]]) ∧
    (∀ (pt : Type) (g : CGeneralGeometry pt),
      g.m_contour_array.length ≤ g.BeginContour.m_contour_array.length ∧
      ((g.m_contour_array.getLastD []).isEmpty = true → g.BeginContour = g)) ∧
    (∀ (pt : Type) (g : CGeneralGeometry pt), Reachable g →
      1 ≤ g.m_contour_array.length) := by
  refine ⟨fun _ _ _ => rfl, fun _ _ => rfl, ?_, ?_⟩
  · intro pt g
    constructor
    · unfold CGeneralGeometry.BeginContour
      split_ifs with h
      · exact le_rfl
      · simp
    · intro h
      unfold CGeneralGeometry.BeginContour
      rw [if_pos h]
  · intro pt g hg
    induction hg with
    | init t closed => simp [CGeneralGeometry.init]
    | clear g _ _ => simp [CGeneralGeometry.Clear]
    | setClosed g b _ ih => simpa [CGeneralGeometry.SetClosed] using ih
    | beginContour g _ ih =>
      unfold CGeneralGeometry.BeginContour
      split_ifs with h
      · exact ih
      · simp
    | appendPoint g p _ _ => simp [CGeneralGeometry.AppendPoint]
    | setPoint g i j p _ ih => simpa [CGeneralGeometry.SetPoint] using ih
    | reverse g _ ih => simpa [CGeneralGeometry.Reverse] using ih
    | convertCoords g t f _ ih =>
      unfold CGeneralGeometry.ConvertCoords
      split_ifs with h
      · exact ih
      · simpa [convertCoordsLoop_length] using ih

/-- Claim C10, witness: a freshly constructed geometry, cleared, begun and
appended to, always reports at least one contour. -/
theorem c10_at_least_one_contour_witness :
    1 ≤ ((CGeneralGeometry.init Int TCoordType.Map false).AppendPoint
        5).BeginContour.m_contour_array.length :=
  c10_at_least_one_contour.2.2.2 Int _
    (Reachable.beginContour _ (Reachable.appendPoint _ 5 (Reachable.init _ _)))

end CartoType
